import Mathlib

/-!
Shallow embedding of the SupportMix region-classifier post-filter
(`regionClassifier.py`): the genetic-map lookup `geneticMap.pos2gm`, the
windowing / transition-matrix / emission-matrix construction inside
`hmmFilter.__call__`, and the posterior-argmax call selection.

Python floats are modelled by exact arithmetic: rationals (`ℚ`) for the
genetic-map and windowing layers, reals (`ℝ`) where `np.exp` appears.
Python exceptions are modelled by `Except PyError`.
-/

namespace SupportMix

/-- Python exception kinds raised by the embedded code.  In Python,
`IndexError` is a subclass of `LookupError`. -/
inductive PyError where
  | indexError
  | valueError
  | zeroDivisionError
deriving DecidableEq, Repr

deriving instance DecidableEq for Except

/-- Whether an `Except` computation returned a value (no exception). -/
def isOkE {ε α : Type} (r : Except ε α) : Bool :=
  match r with
  | Except.ok _ => true
  | Except.error _ => false

/-- Binary search kernel of `numpy.searchsorted(side='left')`: on the
half-open interval `[lo, hi)` it narrows to the insertion point via
`mid = (lo+hi)/2`, moving `lo` past `mid` when `a[mid] < v` and `hi`
down to `mid` otherwise.  The first argument is fuel bounding the number
of iterations (each iteration shrinks `hi - lo`, so `hi - lo` fuel is
always enough); it only makes the recursion structural. -/
def ssGo (a : List ℚ) (v : ℚ) : ℕ → ℕ → ℕ → ℕ
  | 0, lo, _ => lo
  | fuel + 1, lo, hi =>
    if lo < hi then
      if a.getD ((lo + hi) / 2) 0 < v then ssGo a v fuel ((lo + hi) / 2 + 1) hi
      else ssGo a v fuel lo ((lo + hi) / 2)
    else lo

/-- `numpy.ndarray.searchsorted(v)` (default `side='left'`), as used at
line 187 of `regionClassifier.py`. -/
def searchsorted (a : List ℚ) (v : ℚ) : ℕ := ssGo a v a.length 0 a.length

/-- `geneticMap.pos2gm` (lines 184-199 of `regionClassifier.py`).
The table `m` lists `(physical position, genetic position)` rows
(columns 0 and 2 of the map file).  An empty table makes the Python
expression `m[:,0]` raise `IndexError` (the array is 1-D); that happens
outside the `try`, so it propagates.  Otherwise `i = searchsorted(pos)`;
inside the `try`, `m[i,0]` raises `IndexError` exactly when
`i == len(m)`, which the handler turns into `m[-1,1]`; any other `i`
would be re-raised, and the final interpolation is
`(m[i,1]-m[i-1,1])/(m[i,0]-m[i-1,0])*(pos-m[i-1,0]) + m[i-1,1]`. -/
def pos2gm (m : List (ℚ × ℚ)) (pos : ℚ) : Except PyError ℚ :=
  let i := searchsorted (m.map Prod.fst) pos
  if m.length = 0 then Except.error PyError.indexError
  else if i < m.length then
    if (m.getD i (0, 0)).1 = pos ∨ i = 0 then Except.ok (m.getD i (0, 0)).2
    else if i = 0 then Except.ok (m.getD 0 (0, 0)).2
    else
      Except.ok (((m.getD i (0, 0)).2 - (m.getD (i - 1) (0, 0)).2) /
          ((m.getD i (0, 0)).1 - (m.getD (i - 1) (0, 0)).1) *
          (pos - (m.getD (i - 1) (0, 0)).1) + (m.getD (i - 1) (0, 0)).2)
  else if i = m.length then Except.ok (m.getLastD (0, 0)).2
  else Except.error PyError.indexError

/-- Instrumentation of `pos2gm`: same control flow, returning `true`
precisely when the `elif i==0` branch (line 191 of
`regionClassifier.py`) would be executed. -/
def pos2gmDeadBranchTaken (m : List (ℚ × ℚ)) (pos : ℚ) : Bool :=
  let i := searchsorted (m.map Prod.fst) pos
  if m.length = 0 then false
  else if i < m.length then
    if (m.getD i (0, 0)).1 = pos ∨ i = 0 then false
    else if i = 0 then true
    else false
  else false

/-- `win_size=int(np.ceil(len(mapLocations)/float(admixedClass.shape[0])))`
(line 135): ceiling division of the SNP count `N` by the window count
`W`, in exact arithmetic. -/
def binSize (N W : ℕ) : ℕ := (N + W - 1) / W

/-- `np.mean` of a list of rationals. -/
def listMean (l : List ℚ) : ℚ := l.sum / (l.length : ℚ)

/-- The loop indices `range(0, N, ws)` of line 139: the multiples of
`ws` below `N` (there are `⌈N/ws⌉` of them when `ws ≥ 1`). -/
def windowStarts (N ws : ℕ) : List ℕ := (List.range ((N + ws - 1) / ws)).map (· * ws)

/-- The per-window representative genetic positions of lines 139-140:
for each loop index `i` of `range(0, N, win_size)`, the mean
`np.mean(mapLocations[i:i+win_size])` of the corresponding slice. -/
def windowMeans (locs : List ℚ) (W : ℕ) : List ℚ :=
  (windowStarts locs.length (binSize locs.length W)).map
    (fun i => listMean ((locs.drop i).take (binSize locs.length W)))

/-- The `nClasses×nClasses` matrix filled row-by-row as
`x[j,:]=(1.-v)/(nClasses-1); x[j,j]=v`.  Lines 144-147 build it with
`v = e` (state transitions) and lines 152-155 with `v = s` (output
confusion); the resulting entries are `v` on the diagonal and
`(1-v)/(nClasses-1)` off it. -/
noncomputable def confusionMatrix (n : ℕ) (v : ℝ) : Matrix (Fin n) (Fin n) ℝ :=
  Matrix.of fun j k => if k = j then v else (1 - v) / ((n : ℝ) - 1)

/-- Retention probability of lines 141-142:
`e = np.exp(-(newPos - oldPos)/100*nGens)`. -/
noncomputable def retention (nGens oldPos newPos : ℝ) : ℝ :=
  Real.exp (-(newPos - oldPos) / 100 * nGens)

/-- The transition-matrix loop of lines 138-148, threading the mutable
`oldPos` through the recursion: one matrix is appended for every window
position, including the first (whose reference is the initial
`oldPos=0`). -/
noncomputable def transitionMatricesFrom (n : ℕ) (nGens : ℝ) :
    ℝ → List ℝ → List (Matrix (Fin n) (Fin n) ℝ)
  | _, [] => []
  | oldPos, p :: ps =>
      confusionMatrix n (retention nGens oldPos p) :: transitionMatricesFrom n nGens p ps

/-- The full transition-matrix list `a` of lines 137-150, starting from
`oldPos = 0`. -/
noncomputable def transitionMatrices (n : ℕ) (nGens : ℝ) (ps : List ℝ) :
    List (Matrix (Fin n) (Fin n) ℝ) :=
  transitionMatricesFrom n nGens 0 ps

/-- The retention probability used for the `t`-th window: the reference
position is `0` for `t = 0` and the previous window position otherwise,
i.e. the `t`-th element of `0 :: ps`. -/
noncomputable def retentionAt (nGens : ℝ) (ps : List ℝ) (t : ℕ) : ℝ :=
  retention nGens ((0 :: ps).getD t 0) (ps.getD t 0)

/-- The emission-matrix loop `for s in successRate` of lines 151-157:
one confusion matrix per success-rate entry. -/
noncomputable def emissionMatrices (n : ℕ) (sr : List ℝ) :
    List (Matrix (Fin n) (Fin n) ℝ) :=
  sr.map (confusionMatrix n)

/-- `model.pstate.argsort(1)` restricted to one row: the indices
`0..len-1` sorted by their posterior value.  numpy's sort leaves tied
entries in index order for the row sizes arising here, which a stable
sort models. -/
def argsortRow (row : List ℚ) : List ℕ :=
  (List.range row.length).mergeSort (fun i j => decide (row.getD i 0 ≤ row.getD j 0))

/-- `model.pstate.argsort(1)[:,-1]` for one row (line 164): the last
entry of the index sort. -/
def argsortLast (row : List ℚ) : ℕ := (argsortRow row).getLastD 0

/-- The per-sample smoothed call sequence of lines 161-165: for each
window (row of the posterior table) the argsort-last state index. -/
def smoothedCalls (pstate : List (List ℚ)) : List ℕ := pstate.map argsortLast

/-- Python 2's eager `map(f, xs)` over a function that may raise,
modelled on `Except`: the first exception propagates. -/
def mapExcept (f : ℚ → Except PyError ℚ) : List ℚ → Except PyError (List ℚ)
  | [] => Except.ok []
  | p :: ps =>
    match f p with
    | Except.error e => Except.error e
    | Except.ok v =>
      match mapExcept f ps with
      | Except.error e => Except.error e
      | Except.ok vs => Except.ok (v :: vs)

/-- The model-building part of `hmmFilter.__call__` (lines 127-157),
with its Python error behaviour: `map(self.gm.pos2gm, snpLocations)`
propagates any `pos2gm` exception; `len(mapLocations)/float(W)` raises
`ZeroDivisionError` when the raw call matrix has no rows; and
`range(0, N, 0)` (which happens exactly when `win_size = 0`, i.e.
`N = 0`) raises `ValueError`.  Otherwise the transition matrices `a`
and emission matrices `b` are built and handed to the external HMM. -/
noncomputable def hmmFilterMatrices (gm : List (ℚ × ℚ)) (nGens : ℝ) (nClasses : ℕ)
    (snpLocations : List ℚ) (successRate : List ℝ) (W : ℕ) :
    Except PyError
      (List (Matrix (Fin nClasses) (Fin nClasses) ℝ) ×
       List (Matrix (Fin nClasses) (Fin nClasses) ℝ)) :=
  match mapExcept (pos2gm gm) snpLocations with
  | Except.error e => Except.error e
  | Except.ok mapLocations =>
    if W = 0 then Except.error PyError.zeroDivisionError
    else if binSize mapLocations.length W = 0 then Except.error PyError.valueError
    else
      Except.ok
        (transitionMatrices nClasses nGens
            ((windowMeans mapLocations W).map (Rat.cast : ℚ → ℝ)),
         emissionMatrices nClasses successRate)

/-- Whether the model-building part of the filter completed without a
Python exception. -/
def buildSucceeded {n : ℕ}
    (r : Except PyError
      (List (Matrix (Fin n) (Fin n) ℝ) × List (Matrix (Fin n) (Fin n) ℝ))) : Bool :=
  match r with
  | Except.ok _ => true
  | Except.error _ => false

/-- Number of transition matrices built by the filter (0 on error). -/
def builtTransCount {n : ℕ}
    (r : Except PyError
      (List (Matrix (Fin n) (Fin n) ℝ) × List (Matrix (Fin n) (Fin n) ℝ))) : ℕ :=
  match r with
  | Except.ok ab => ab.1.length
  | Except.error _ => 0

/-! ## Properties of the binary search -/

theorem ssGo_bounds (a : List ℚ) (v : ℚ) :
    ∀ fuel lo hi, lo ≤ hi → lo ≤ ssGo a v fuel lo hi ∧ ssGo a v fuel lo hi ≤ hi := by
  intro fuel
  induction fuel with
  | zero => intro lo hi h; simp only [ssGo]; omega
  | succ fuel ih =>
    intro lo hi h
    rw [ssGo]
    split
    · split
      · have := ih ((lo + hi) / 2 + 1) hi (by omega)
        omega
      · have := ih lo ((lo + hi) / 2) (by omega)
        omega
    · omega

theorem getD_mono_of_pairwise (a : List ℚ) (hs : a.Pairwise (· ≤ ·)) {i j : ℕ}
    (hij : i ≤ j) (hj : j < a.length) : a.getD i 0 ≤ a.getD j 0 := by
  rcases eq_or_lt_of_le hij with rfl | h
  · exact le_refl _
  · have hi' : i < a.length := lt_trans h hj
    have := List.pairwise_iff_get.mp hs ⟨i, hi'⟩ ⟨j, hj⟩ h
    rw [List.getD_eq_getElem _ _ hi', List.getD_eq_getElem _ _ hj]
    simpa using this

theorem ssGo_invariant (a : List ℚ) (v : ℚ) (hs : a.Pairwise (· ≤ ·)) :
    ∀ fuel lo hi, hi - lo ≤ fuel → lo ≤ hi → hi ≤ a.length →
    (∀ j, j < lo → a.getD j 0 < v) →
    (∀ j, hi ≤ j → j < a.length → v ≤ a.getD j 0) →
    (∀ j, j < ssGo a v fuel lo hi → a.getD j 0 < v) ∧
      (∀ j, ssGo a v fuel lo hi ≤ j → j < a.length → v ≤ a.getD j 0) := by
  intro fuel
  induction fuel with
  | zero =>
    intro lo hi hfuel hlh hhi hlow hhigh
    simp only [ssGo]
    exact ⟨hlow, fun j hj hjl => hhigh j (by omega) hjl⟩
  | succ fuel ih =>
    intro lo hi hfuel hlh hhi hlow hhigh
    rw [ssGo]
    by_cases h : lo < hi
    · rw [if_pos h]
      by_cases hmid : a.getD ((lo + hi) / 2) 0 < v
      · rw [if_pos hmid]
        apply ih _ _ (by omega) (by omega) hhi _ hhigh
        intro j hj
        rcases lt_or_ge j lo with hj' | hj'
        · exact hlow j hj'
        · exact lt_of_le_of_lt (getD_mono_of_pairwise a hs (by omega) (by omega)) hmid
      · rw [if_neg hmid]
        apply ih _ _ (by omega) (by omega) (by omega) hlow
        intro j hj hjl
        exact le_trans (not_lt.mp hmid) (getD_mono_of_pairwise a hs hj hjl)
    · rw [if_neg h]
      exact ⟨hlow, fun j hj hjl => hhigh j (by omega) hjl⟩

theorem searchsorted_le_length (a : List ℚ) (v : ℚ) : searchsorted a v ≤ a.length :=
  (ssGo_bounds a v a.length 0 a.length (by omega)).2

theorem searchsorted_spec (a : List ℚ) (v : ℚ) (hs : a.Pairwise (· ≤ ·)) :
    (∀ j, j < searchsorted a v → a.getD j 0 < v) ∧
      (∀ j, searchsorted a v ≤ j → j < a.length → v ≤ a.getD j 0) :=
  ssGo_invariant a v hs a.length 0 a.length (by omega) (by omega) (le_refl _)
    (fun j hj => absurd hj (by omega))
    (fun j hj hjl => absurd hjl (by omega))

/-! ## Table-level helpers -/

theorem fst_getD (m : List (ℚ × ℚ)) (j : ℕ) (hj : j < m.length) :
    (m.map Prod.fst).getD j 0 = (m.getD j (0, 0)).1 := by
  rw [List.getD_eq_getElem _ _ (by simpa using hj), List.getD_eq_getElem _ _ hj]
  simp

theorem fst_lt_fst (m : List (ℚ × ℚ)) (hinc : (m.map Prod.fst).Pairwise (· < ·))
    {j k : ℕ} (hjk : j < k) (hk : k < m.length) :
    (m.getD j (0, 0)).1 < (m.getD k (0, 0)).1 := by
  have hj : j < m.length := lt_trans hjk hk
  have h := List.pairwise_iff_get.mp hinc ⟨j, by simpa using hj⟩ ⟨k, by simpa using hk⟩ hjk
  rw [← fst_getD m j hj, ← fst_getD m k hk,
    List.getD_eq_getElem _ _ (by simpa using hj), List.getD_eq_getElem _ _ (by simpa using hk)]
  simpa using h

theorem getLastD_eq_getD (m : List (ℚ × ℚ)) :
    m.getLastD (0, 0) = m.getD (m.length - 1) (0, 0) := by
  rw [List.getLastD_eq_getLast?, List.getLast?_eq_getElem?, List.getD_eq_getElem?_getD]

/-! ## pos2gm case analysis -/

theorem pos2gm_eq (m : List (ℚ × ℚ)) (pos : ℚ) :
    pos2gm m pos =
      (if m.length = 0 then Except.error PyError.indexError
       else if searchsorted (m.map Prod.fst) pos < m.length then
         if (m.getD (searchsorted (m.map Prod.fst) pos) (0, 0)).1 = pos ∨
             searchsorted (m.map Prod.fst) pos = 0 then
           Except.ok (m.getD (searchsorted (m.map Prod.fst) pos) (0, 0)).2
         else if searchsorted (m.map Prod.fst) pos = 0 then Except.ok (m.getD 0 (0, 0)).2
         else
           Except.ok
             (((m.getD (searchsorted (m.map Prod.fst) pos) (0, 0)).2 -
                 (m.getD (searchsorted (m.map Prod.fst) pos - 1) (0, 0)).2) /
               ((m.getD (searchsorted (m.map Prod.fst) pos) (0, 0)).1 -
                 (m.getD (searchsorted (m.map Prod.fst) pos - 1) (0, 0)).1) *
               (pos - (m.getD (searchsorted (m.map Prod.fst) pos - 1) (0, 0)).1) +
               (m.getD (searchsorted (m.map Prod.fst) pos - 1) (0, 0)).2)
       else if searchsorted (m.map Prod.fst) pos = m.length then
         Except.ok (m.getLastD (0, 0)).2
       else Except.error PyError.indexError) := rfl

theorem table_searchsorted_facts (m : List (ℚ × ℚ)) (pos : ℚ)
    (hinc : (m.map Prod.fst).Pairwise (· < ·)) :
    searchsorted (m.map Prod.fst) pos ≤ m.length ∧
    (∀ j, j < searchsorted (m.map Prod.fst) pos → (m.getD j (0, 0)).1 < pos) ∧
    (∀ j, searchsorted (m.map Prod.fst) pos ≤ j → j < m.length →
      pos ≤ (m.getD j (0, 0)).1) := by
  have hle : (m.map Prod.fst).Pairwise (· ≤ ·) := hinc.imp (fun h => le_of_lt h)
  have hlen : (m.map Prod.fst).length = m.length := by simp
  obtain ⟨hlow, hhigh⟩ := searchsorted_spec (m.map Prod.fst) pos hle
  have hb := searchsorted_le_length (m.map Prod.fst) pos
  rw [hlen] at hb
  refine ⟨hb, ?_, ?_⟩
  · intro j hj
    rw [← fst_getD m j (by omega)]
    exact hlow j hj
  · intro j hj hjl
    rw [← fst_getD m j hjl]
    exact hhigh j hj (by omega)

/-- **C5**: on a non-empty table with strictly increasing physical
positions, `pos2gm` returns the tabulated genetic position at an exact
match, clamps to the first (resp. last) genetic position below (resp.
above) the tabulated range, and otherwise interpolates linearly between
the two bracketing rows. -/
theorem claim5_pos2gm_cases (m : List (ℚ × ℚ)) (pos : ℚ)
    (hne : m ≠ []) (hinc : (m.map Prod.fst).Pairwise (· < ·)) :
    (∀ k, k < m.length → (m.getD k (0, 0)).1 = pos →
        pos2gm m pos = Except.ok (m.getD k (0, 0)).2) ∧
    (pos < (m.getD 0 (0, 0)).1 → pos2gm m pos = Except.ok (m.getD 0 (0, 0)).2) ∧
    ((m.getLastD (0, 0)).1 < pos → pos2gm m pos = Except.ok (m.getLastD (0, 0)).2) ∧
    (∀ k, k + 1 < m.length → (m.getD k (0, 0)).1 < pos → pos < (m.getD (k + 1) (0, 0)).1 →
        pos2gm m pos = Except.ok ((m.getD k (0, 0)).2 +
          ((m.getD (k + 1) (0, 0)).2 - (m.getD k (0, 0)).2) /
            ((m.getD (k + 1) (0, 0)).1 - (m.getD k (0, 0)).1) *
            (pos - (m.getD k (0, 0)).1))) := by
  have h0 : m.length ≠ 0 := by simpa using hne
  obtain ⟨hb, hlow, hhigh⟩ := table_searchsorted_facts m pos hinc
  refine ⟨?_, ?_, ?_, ?_⟩
  · intro k hk hkpos
    have hik : searchsorted (m.map Prod.fst) pos = k := by
      by_contra hne'
      rcases lt_or_gt_of_ne hne' with hlt | hgt
      · have h1 := hhigh _ (le_refl _) (by omega)
        have h2 := fst_lt_fst m hinc hlt hk
        rw [hkpos] at h2
        exact absurd (lt_of_le_of_lt h1 h2) (lt_irrefl pos)
      · have h3 := hlow k hgt
        rw [hkpos] at h3
        exact lt_irrefl pos h3
    rw [pos2gm_eq, if_neg h0, hik, if_pos hk, if_pos (Or.inl hkpos)]
  · intro hpos
    have hik : searchsorted (m.map Prod.fst) pos = 0 := by
      by_contra hne'
      have h3 : (m.getD 0 (0, 0)).1 < pos := hlow 0 (by omega)
      exact absurd (lt_trans hpos h3) (lt_irrefl pos)
    rw [pos2gm_eq, if_neg h0, hik, if_pos (by omega), if_pos (Or.inr rfl)]
  · intro hpos
    have hpos' : (m.getD (m.length - 1) (0, 0)).1 < pos := by
      rw [← getLastD_eq_getD]; exact hpos
    have hik : searchsorted (m.map Prod.fst) pos = m.length := by
      by_contra hne'
      have hlt : searchsorted (m.map Prod.fst) pos < m.length := by omega
      have h1 := hhigh _ (le_refl _) hlt
      have h2 : (m.getD (searchsorted (m.map Prod.fst) pos) (0, 0)).1 ≤
          (m.getD (m.length - 1) (0, 0)).1 := by
        rcases eq_or_lt_of_le (show searchsorted (m.map Prod.fst) pos ≤ m.length - 1 by
          omega) with he | hl
        · rw [he]
        · exact le_of_lt (fst_lt_fst m hinc hl (by omega))
      exact absurd (lt_of_le_of_lt (le_trans h1 h2) hpos') (lt_irrefl pos)
    rw [pos2gm_eq, if_neg h0, hik, if_neg (lt_irrefl _), if_pos rfl]
  · intro k hk1 hklt hkgt
    have hik : searchsorted (m.map Prod.fst) pos = k + 1 := by
      by_contra hne'
      rcases lt_or_gt_of_ne hne' with hlt | hgt
      · have h1 := hhigh _ (le_refl _) (by omega)
        have h2 : (m.getD (searchsorted (m.map Prod.fst) pos) (0, 0)).1 ≤
            (m.getD k (0, 0)).1 := by
          rcases eq_or_lt_of_le (show searchsorted (m.map Prod.fst) pos ≤ k by omega)
            with he | hl
          · rw [he]
          · exact le_of_lt (fst_lt_fst m hinc hl (by omega))
        exact absurd (lt_of_le_of_lt (le_trans h1 h2) hklt) (lt_irrefl pos)
      · have h3 := hlow (k + 1) hgt
        exact absurd (lt_trans hkgt h3) (lt_irrefl pos)
    rw [pos2gm_eq, if_neg h0, hik, if_pos (by omega : k + 1 < m.length),
      if_neg (by simp only [not_or]; exact ⟨ne_of_gt hkgt, by omega⟩),
      if_neg (by omega : ¬ (k + 1 = 0))]
    simp only [Nat.add_sub_cancel]
    congr 1
    ring

theorem claim5_pos2gm_cases_witness :
    pos2gm [((10 : ℚ), 1), (20, 3), (40, 4)] 20 = Except.ok 3 ∧
    pos2gm [((10 : ℚ), 1), (20, 3), (40, 4)] 5 = Except.ok 1 ∧
    pos2gm [((10 : ℚ), 1), (20, 3), (40, 4)] 50 = Except.ok 4 ∧
    pos2gm [((10 : ℚ), 1), (20, 3), (40, 4)] 30 = Except.ok (7 / 2) := by
  have h20 := claim5_pos2gm_cases [((10 : ℚ), 1), (20, 3), (40, 4)] 20 (by decide) (by decide)
  have h5 := claim5_pos2gm_cases [((10 : ℚ), 1), (20, 3), (40, 4)] 5 (by decide) (by decide)
  have h50 := claim5_pos2gm_cases [((10 : ℚ), 1), (20, 3), (40, 4)] 50 (by decide) (by decide)
  have h30 := claim5_pos2gm_cases [((10 : ℚ), 1), (20, 3), (40, 4)] 30 (by decide) (by decide)
  refine ⟨?_, ?_, ?_, ?_⟩
  · simpa using h20.1 1 (by decide) (by decide)
  · simpa using h5.2.1 (by decide)
  · simpa using h50.2.2.1 (by decide)
  · rw [h30.2.2.2 1 (by decide) (by decide) (by decide)]
    norm_num

/-- **C9** (amended): `pos2gm` on the empty table raises `IndexError`
(a `LookupError` in Python) for every query; on any non-empty table,
malformed or not, it raises nothing and returns a value. -/
theorem claim9_pos2gm_errors (pos : ℚ) :
    pos2gm [] pos = Except.error PyError.indexError ∧
    (∀ m : List (ℚ × ℚ), m ≠ [] → isOkE (pos2gm m pos) = true) := by
  constructor
  · rfl
  · intro m hne
    have h0 : m.length ≠ 0 := by simpa using hne
    have hb := searchsorted_le_length (m.map Prod.fst) pos
    rw [List.length_map] at hb
    rw [pos2gm_eq]
    split_ifs with h1 h2 h3 h4 h5
    any_goals rfl
    · exact absurd h1 h0
    · omega

theorem claim9_pos2gm_errors_witness :
    pos2gm [] 7 = Except.error PyError.indexError ∧
    isOkE (pos2gm [((1 : ℚ), 2)] 7) = true :=
  ⟨(claim9_pos2gm_errors 7).1, (claim9_pos2gm_errors 7).2 [((1 : ℚ), 2)] (by decide)⟩

/-- **C9 counterexample**: a malformed table (physical positions not
strictly increasing) on which `pos2gm` does not fail: it returns a
value computed from the binary search run on the unsorted column. -/
theorem claim9_counterexample :
    ¬ (([((5 : ℚ), 1), (3, 2)].map Prod.fst).Pairwise (· < ·)) ∧
    pos2gm [((5 : ℚ), 1), (3, 2)] 4 = Except.ok 2 := by
  constructor
  · decide
  · decide

/-- **C10**: the `elif i==0` branch of `pos2gm` is unreachable — the
instrumented control flow never reaches it for any table and query —
because whenever the searched index `i` is `0` (and the table is
non-empty, so the guard is evaluated at all) the first branch's
condition `m[i,0]==pos or i==0` already holds and returns `m[0,1]`. -/
theorem claim10_dead_branch (m : List (ℚ × ℚ)) (pos : ℚ) :
    pos2gmDeadBranchTaken m pos = false ∧
    (m ≠ [] → searchsorted (m.map Prod.fst) pos = 0 →
      pos2gm m pos = Except.ok (m.getD 0 (0, 0)).2) := by
  constructor
  · show (if m.length = 0 then false
      else if searchsorted (m.map Prod.fst) pos < m.length then
        if (m.getD (searchsorted (m.map Prod.fst) pos) (0, 0)).1 = pos ∨
            searchsorted (m.map Prod.fst) pos = 0 then false
        else if searchsorted (m.map Prod.fst) pos = 0 then true
        else false
      else false) = false
    split_ifs with h1 h2 h3 h4
    any_goals rfl
    exact absurd (Or.inr h4) h3
  · intro hne hik
    have h0 : m.length ≠ 0 := by simpa using hne
    rw [pos2gm_eq, if_neg h0, hik, if_pos (by omega), if_pos (Or.inr rfl)]

theorem claim10_dead_branch_witness :
    pos2gmDeadBranchTaken [((1 : ℚ), 2)] 0 = false ∧
    pos2gm [((1 : ℚ), 2)] 0 = Except.ok 2 :=
  ⟨(claim10_dead_branch [((1 : ℚ), 2)] 0).1,
    by simpa using (claim10_dead_branch [((1 : ℚ), 2)] 0).2 (by decide) (by decide)⟩

/-! ## Windowing -/

theorem windowMeans_length (locs : List ℚ) (W : ℕ) :
    (windowMeans locs W).length =
      (locs.length + binSize locs.length W - 1) / binSize locs.length W := by
  simp [windowMeans, windowStarts]

theorem windowMeans_getD (locs : List ℚ) (W : ℕ) (t : ℕ)
    (ht : t < (windowMeans locs W).length) :
    (windowMeans locs W).getD t 0 =
      listMean ((locs.drop (t * binSize locs.length W)).take (binSize locs.length W)) := by
  rw [List.getD_eq_getElem _ _ ht]
  simp [windowMeans, windowStarts]

theorem ceil_div_spec (a b : ℕ) (hb : 1 ≤ b) (ha : 1 ≤ a) :
    1 ≤ (a + b - 1) / b ∧ a ≤ b * ((a + b - 1) / b) ∧ b * ((a + b - 1) / b - 1) < a := by
  have h1 := Nat.div_add_mod (a + b - 1) b
  have h2 : (a + b - 1) % b < b := Nat.mod_lt _ (by omega)
  have hq : 1 ≤ (a + b - 1) / b := (Nat.one_le_div_iff (by omega)).mpr (by omega)
  refine ⟨hq, by omega, ?_⟩
  obtain ⟨q', hq'⟩ : ∃ q', (a + b - 1) / b = q' + 1 := ⟨(a + b - 1) / b - 1, by omega⟩
  rw [hq'] at h1 ⊢
  rw [Nat.mul_succ] at h1
  simp only [Nat.add_sub_cancel]
  omega

theorem ceil_count_eq_iff (a b W : ℕ) (hb : 1 ≤ b) (ha : 1 ≤ a) (hW : 1 ≤ W) :
    (a + b - 1) / b = W ↔ (W - 1) * b < a ∧ a ≤ W * b := by
  obtain ⟨hq1, hq2, hq3⟩ := ceil_div_spec a b hb ha
  constructor
  · intro h
    rw [h] at hq2 hq3
    refine ⟨?_, by rw [Nat.mul_comm]; exact hq2⟩
    calc (W - 1) * b = b * (W - 1) := Nat.mul_comm _ _
    _ < a := hq3
  · rintro ⟨h1, h2⟩
    by_contra hne
    rcases lt_or_gt_of_ne hne with hlt | hgt
    · have hle : (a + b - 1) / b ≤ W - 1 := by omega
      have hcontra : a < a := calc
        a ≤ b * ((a + b - 1) / b) := hq2
        _ ≤ b * (W - 1) := Nat.mul_le_mul_left b hle
        _ = (W - 1) * b := Nat.mul_comm _ _
        _ < a := h1
      exact absurd hcontra (lt_irrefl a)
    · have hle : W ≤ (a + b - 1) / b - 1 := by omega
      have hcontra : a < a := calc
        a ≤ W * b := h2
        _ = b * W := Nat.mul_comm _ _
        _ ≤ b * ((a + b - 1) / b - 1) := Nat.mul_le_mul_left b hle
        _ < a := hq3
      exact absurd hcontra (lt_irrefl a)

/-- **C1** (amended): the windowing step computes `binSize = ⌈N/W⌉`,
partitions the `N` mapped SNP positions into consecutive bins of
`binSize` (last bin possibly shorter) and takes one arithmetic mean per
bin; it produces `⌈N/binSize⌉` representative positions, which always
satisfies `N ≤ W*binSize`, and equals `W` exactly when
`(W-1)*binSize < N` — which can fail for valid inputs `N ≥ W`. -/
theorem claim1_windowing (locs : List ℚ) (W : ℕ) (hW : 1 ≤ W) (hN : W ≤ locs.length) :
    binSize locs.length W = (locs.length + W - 1) / W ∧
    (∀ t, t < (windowMeans locs W).length →
      (windowMeans locs W).getD t 0 =
        listMean ((locs.drop (t * binSize locs.length W)).take (binSize locs.length W))) ∧
    (windowMeans locs W).length =
      (locs.length + binSize locs.length W - 1) / binSize locs.length W ∧
    locs.length ≤ W * binSize locs.length W ∧
    ((windowMeans locs W).length = W ↔ (W - 1) * binSize locs.length W < locs.length) := by
  have ha : 1 ≤ locs.length := le_trans hW hN
  obtain ⟨hq1, hq2, hq3⟩ := ceil_div_spec locs.length W hW ha
  have hbs : 1 ≤ binSize locs.length W := hq1
  refine ⟨rfl, fun t ht => windowMeans_getD locs W t ht, windowMeans_length locs W, ?_, ?_⟩
  · exact hq2
  · rw [windowMeans_length]
    have hiff := ceil_count_eq_iff locs.length (binSize locs.length W) W hbs ha hW
    constructor
    · intro h
      exact (hiff.mp h).1
    · intro h
      exact hiff.mpr ⟨h, by simpa [Nat.mul_comm] using hq2⟩

theorem claim1_windowing_witness :
    (windowMeans [(1 : ℚ), 2, 3, 4, 5, 6] 3).length = 3 ∧
    (windowMeans [(1 : ℚ), 2, 3, 4, 5, 6] 3).getD 1 0 =
      listMean (([(1 : ℚ), 2, 3, 4, 5, 6].drop (1 * binSize 6 3)).take (binSize 6 3)) := by
  have h := claim1_windowing [(1 : ℚ), 2, 3, 4, 5, 6] 3 (by decide) (by decide)
  exact ⟨h.2.2.2.2.mpr (by decide), h.2.1 1 (by decide)⟩

/-- **C1 counterexample**: for N = 9 SNP positions and W = 4 windows
(so N ≥ W), `binSize = ⌈9/4⌉ = 3` but the loop produces only
`⌈9/3⌉ = 3` representative positions, not `W = 4`, and
`(W-1)*binSize < N` fails (`9 < 9` is false). -/
theorem claim1_counterexample :
    binSize 9 4 = 3 ∧
    (windowMeans [(1 : ℚ), 2, 3, 4, 5, 6, 7, 8, 9] 4).length = 3 ∧
    ¬ ((windowMeans [(1 : ℚ), 2, 3, 4, 5, 6, 7, 8, 9] 4).length = 4) ∧
    ¬ ((4 - 1) * binSize 9 4 < 9) :=
  ⟨by decide, by decide, by decide, by decide⟩

/-! ## Transition and emission matrices -/

theorem transitionMatricesFrom_length (n : ℕ) (nGens : ℝ) (old : ℝ) (ps : List ℝ) :
    (transitionMatricesFrom n nGens old ps).length = ps.length := by
  induction ps generalizing old with
  | nil => rfl
  | cons p ps ih => simp [transitionMatricesFrom, ih]

theorem transitionMatrices_length (n : ℕ) (nGens : ℝ) (ps : List ℝ) :
    (transitionMatrices n nGens ps).length = ps.length :=
  transitionMatricesFrom_length n nGens 0 ps

theorem transitionMatricesFrom_getD (n : ℕ) (nGens : ℝ) (old : ℝ) (ps : List ℝ) (t : ℕ)
    (ht : t < ps.length) :
    (transitionMatricesFrom n nGens old ps).getD t 0 =
      confusionMatrix n (retention nGens ((old :: ps).getD t 0) (ps.getD t 0)) := by
  induction ps generalizing old t with
  | nil => simp at ht
  | cons p ps ih =>
    cases t with
    | zero => simp [transitionMatricesFrom]
    | succ t =>
      simp only [transitionMatricesFrom, List.getD_cons_succ]
      exact ih p t (by simpa using ht)

theorem transitionMatrices_getD (n : ℕ) (nGens : ℝ) (ps : List ℝ) (t : ℕ)
    (ht : t < ps.length) :
    (transitionMatrices n nGens ps).getD t 0 = confusionMatrix n (retentionAt nGens ps t) :=
  transitionMatricesFrom_getD n nGens 0 ps t ht

theorem transitionMatricesFrom_mem (n : ℕ) (nGens old : ℝ) (ps : List ℝ)
    (M : Matrix (Fin n) (Fin n) ℝ) (hM : M ∈ transitionMatricesFrom n nGens old ps) :
    ∃ v, M = confusionMatrix n v := by
  induction ps generalizing old with
  | nil => simp [transitionMatricesFrom] at hM
  | cons p ps ih =>
    simp only [transitionMatricesFrom, List.mem_cons] at hM
    rcases hM with rfl | hM
    · exact ⟨retention nGens old p, rfl⟩
    · exact ih p hM

/-- **C3** (amended): the transition-model builder produces exactly one
transition matrix per representative window position — W matrices when
windowing yields W windows, the first anchored at reference position 0
— not W−1. -/
theorem claim3_transition_count (n : ℕ) (nGens : ℝ) (locs : List ℚ) (W : ℕ) :
    (transitionMatrices n nGens ((windowMeans locs W).map (Rat.cast : ℚ → ℝ))).length =
      (windowMeans locs W).length := by
  rw [transitionMatrices_length]
  simp only [List.length_map]

/-- **C3 counterexample**: with N = 4 SNP positions and W = 2
classification windows the builder produces 2 transition matrices,
not W − 1 = 1. -/
theorem claim3_counterexample :
    (transitionMatrices 3 10
      ((windowMeans [(1 : ℚ), 2, 3, 4] 2).map (Rat.cast : ℚ → ℝ))).length = 2 ∧
    (2 : ℕ) ≠ 2 - 1 := by
  constructor
  · rw [transitionMatrices_length]
    simp only [List.length_map]
    decide
  · decide

/-- **C2** (amended): the transition construction starts from reference
0, uses `e = exp(-(p - reference)/100*nGens)` per window (updating the
reference), and builds the matrix with diagonal `e` and off-diagonal
`(1-e)/(nClasses-1)`; `e ∈ (0,1]` whenever the window positions are
non-decreasing *and non-negative* (equivalently `0 :: ps` is a
non-decreasing chain) and `nGens > 0`. -/
theorem claim2_transition_matrices (n : ℕ) (nGens : ℝ) (ps : List ℝ) (hn : 2 ≤ n) :
    (∀ t, t < ps.length →
      (transitionMatrices n nGens ps).getD t 0 =
        confusionMatrix n (retentionAt nGens ps t) ∧
      retentionAt nGens ps t =
        Real.exp (-(ps.getD t 0 - (0 :: ps).getD t 0) / 100 * nGens) ∧
      (∀ j k : Fin n, (transitionMatrices n nGens ps).getD t 0 j k =
        if k = j then retentionAt nGens ps t
        else (1 - retentionAt nGens ps t) / ((n : ℝ) - 1))) ∧
    (List.Chain' (· ≤ ·) ((0 : ℝ) :: ps) → 0 < nGens →
      ∀ t, t < ps.length → 0 < retentionAt nGens ps t ∧ retentionAt nGens ps t ≤ 1) := by
  constructor
  · intro t ht
    refine ⟨transitionMatrices_getD n nGens ps t ht, rfl, ?_⟩
    intro j k
    rw [transitionMatrices_getD n nGens ps t ht]
    rfl
  · intro hchain hg t ht
    have hdelta : ((0 : ℝ) :: ps).getD t 0 ≤ ps.getD t 0 := by
      have hc := List.chain'_iff_get.mp hchain t (by simp only [List.length_cons]; omega)
      rw [List.getD_eq_getElem _ _ (show t < ((0 : ℝ) :: ps).length by
        simp only [List.length_cons]; omega), List.getD_eq_getElem _ _ ht]
      simpa using hc
    refine ⟨Real.exp_pos _, ?_⟩
    rw [retentionAt, retention, Real.exp_le_one_iff]
    have h100 : -(ps.getD t 0 - ((0 : ℝ) :: ps).getD t 0) / 100 ≤ 0 := by
      apply div_nonpos_of_nonpos_of_nonneg
      · linarith
      · norm_num
    exact mul_nonpos_iff.mpr (Or.inr ⟨h100, le_of_lt hg⟩)

theorem claim2_transition_matrices_witness :
    (transitionMatrices 2 1 [(1 : ℝ), 2]).getD 0 0 =
      confusionMatrix 2 (retentionAt 1 [(1 : ℝ), 2] 0) ∧
    0 < retentionAt 1 [(1 : ℝ), 2] 1 ∧ retentionAt 1 [(1 : ℝ), 2] 1 ≤ 1 := by
  have h := claim2_transition_matrices 2 1 [(1 : ℝ), 2] (by norm_num)
  have hchain : List.Chain' (· ≤ ·) [(0 : ℝ), 1, 2] := by
    simp only [List.chain'_cons, List.chain'_singleton, and_true]
    norm_num
  exact ⟨(h.1 0 (by norm_num)).1, (h.2 hchain (by norm_num) 1 (by norm_num)).1,
    (h.2 hchain (by norm_num) 1 (by norm_num)).2⟩

/-- **C2 counterexample**: the positions `[-1]` are non-decreasing and
`nGens = 1 > 0`, yet the first retention probability is
`exp(-((-1) - 0)/100) = exp(1/100) > 1`, outside `(0,1]`: the claim's
bound needs non-negativity of the first window position. -/
theorem claim2_counterexample :
    List.Chain' (· ≤ ·) [(-1 : ℝ)] ∧ (0 : ℝ) < 1 ∧
    (transitionMatrices 2 1 [(-1 : ℝ)]).getD 0 0 0 0 = retentionAt 1 [(-1 : ℝ)] 0 ∧
    1 < retentionAt 1 [(-1 : ℝ)] 0 := by
  refine ⟨List.chain'_singleton _, by norm_num, ?_, ?_⟩
  · rw [transitionMatrices_getD 2 1 [(-1 : ℝ)] 0 (by norm_num)]
    rfl
  · show 1 < Real.exp (-((-1 : ℝ) - 0) / 100 * 1)
    rw [Real.one_lt_exp_iff]
    norm_num

theorem emissionMatrices_getD (n : ℕ) (sr : List ℝ) (t : ℕ) (ht : t < sr.length) :
    (emissionMatrices n sr).getD t 0 = confusionMatrix n (sr.getD t 0) := by
  rw [List.getD_eq_getElem _ _ (by simpa [emissionMatrices] using ht),
    List.getD_eq_getElem _ _ ht]
  simp [emissionMatrices]

/-- **C4**: the emission-model builder produces exactly one matrix per
success-rate entry (W for a length-W sequence), the t-th having
diagonal `successRate_t` and off-diagonal
`(1 - successRate_t)/(nClasses - 1)`. -/
theorem claim4_emission_matrices (n : ℕ) (sr : List ℝ) (hn : 2 ≤ n)
    (hsr : ∀ s ∈ sr, 0 ≤ s ∧ s ≤ 1) :
    (emissionMatrices n sr).length = sr.length ∧
    ∀ t, t < sr.length → ∀ j k : Fin n,
      (emissionMatrices n sr).getD t 0 j k =
        if k = j then sr.getD t 0 else (1 - sr.getD t 0) / ((n : ℝ) - 1) := by
  refine ⟨by simp [emissionMatrices], ?_⟩
  intro t ht j k
  rw [emissionMatrices_getD n sr t ht]
  rfl

theorem claim4_emission_matrices_witness :
    (emissionMatrices 2 [(1 / 2 : ℝ)]).length = 1 ∧
    (emissionMatrices 2 [(1 / 2 : ℝ)]).getD 0 0 0 1 =
      if (1 : Fin 2) = 0 then ([(1 / 2 : ℝ)].getD 0 0)
      else (1 - [(1 / 2 : ℝ)].getD 0 0) / ((2 : ℝ) - 1) := by
  have h := claim4_emission_matrices 2 [(1 / 2 : ℝ)] (by norm_num)
    (by intro s hs; simp only [List.mem_singleton] at hs; rw [hs]; norm_num)
  exact ⟨h.1, h.2 0 (by norm_num) 0 1⟩

theorem confusionMatrix_row_sum (n : ℕ) (hn : 2 ≤ n) (v : ℝ) (j : Fin n) :
    ∑ k, confusionMatrix n v j k = 1 := by
  have hne : ((n : ℝ) - 1) ≠ 0 := by
    have h2 : (2 : ℝ) ≤ (n : ℝ) := by exact_mod_cast hn
    linarith
  have hsplit : ∀ k : Fin n, confusionMatrix n v j k =
      (1 - v) / ((n : ℝ) - 1) + (if k = j then v - (1 - v) / ((n : ℝ) - 1) else 0) := by
    intro k
    by_cases h : k = j <;> simp [confusionMatrix, h]
  rw [Finset.sum_congr rfl (fun k _ => hsplit k), Finset.sum_add_distrib,
    Finset.sum_const, Finset.sum_ite_eq' Finset.univ j
      (fun _ => v - (1 - v) / ((n : ℝ) - 1)),
    if_pos (Finset.mem_univ j), Finset.card_univ, Fintype.card_fin, nsmul_eq_mul]
  field_simp
  ring

/-- **C6**: every row of every constructed transition matrix and every
constructed emission matrix sums to exactly 1 (in real arithmetic),
given `nClasses ≥ 2`, non-decreasing window positions, `nGens > 0` and
success rates in `[0,1]`. -/
theorem claim6_row_sums (n : ℕ) (hn : 2 ≤ n) (nGens : ℝ) (ps : List ℝ) (sr : List ℝ)
    (hchain : List.Chain' (· ≤ ·) ps) (hg : 0 < nGens)
    (hsr : ∀ s ∈ sr, 0 ≤ s ∧ s ≤ 1) :
    (∀ M ∈ transitionMatrices n nGens ps, ∀ j : Fin n, ∑ k, M j k = 1) ∧
    (∀ M ∈ emissionMatrices n sr, ∀ j : Fin n, ∑ k, M j k = 1) := by
  constructor
  · intro M hM j
    obtain ⟨v, rfl⟩ := transitionMatricesFrom_mem n nGens 0 ps M hM
    exact confusionMatrix_row_sum n hn v j
  · intro M hM j
    simp only [emissionMatrices, List.mem_map] at hM
    obtain ⟨s, _, rfl⟩ := hM
    exact confusionMatrix_row_sum n hn s j

theorem claim6_row_sums_witness :
    (∀ M ∈ transitionMatrices 2 1 [(1 : ℝ)], ∀ j : Fin 2, ∑ k, M j k = 1) ∧
    (∀ M ∈ emissionMatrices 2 [(1 / 2 : ℝ)], ∀ j : Fin 2, ∑ k, M j k = 1) :=
  claim6_row_sums 2 (by norm_num) 1 [(1 : ℝ)] [(1 / 2 : ℝ)]
    (List.chain'_singleton _) (by norm_num)
    (by intro s hs; simp only [List.mem_singleton] at hs; rw [hs]; norm_num)

/-! ## Posterior argmax selection -/

theorem rowLe_trans (row : List ℚ) (a b c : ℕ)
    (hab : decide (row.getD a 0 ≤ row.getD b 0) = true)
    (hbc : decide (row.getD b 0 ≤ row.getD c 0) = true) :
    decide (row.getD a 0 ≤ row.getD c 0) = true := by
  simp only [decide_eq_true_eq] at *
  exact le_trans hab hbc

theorem rowLe_total (row : List ℚ) (a b : ℕ) :
    (decide (row.getD a 0 ≤ row.getD b 0) || decide (row.getD b 0 ≤ row.getD a 0)) = true := by
  simp only [Bool.or_eq_true, decide_eq_true_eq]
  exact le_total _ _

/-- **C7** (amended): for a non-empty posterior row, the selected call
`argsort(row)[-1]` is a valid state index attaining the maximum
posterior; when several states tie for the maximum it is the *highest*
tied index (every strictly larger index has strictly smaller
posterior), not the lowest. -/
theorem claim7_argmax_call (row : List ℚ) (hne : row ≠ []) :
    argsortLast row < row.length ∧
    (∀ i, i < row.length → row.getD i 0 ≤ row.getD (argsortLast row) 0) ∧
    (∀ i, argsortLast row < i → i < row.length →
      row.getD i 0 < row.getD (argsortLast row) 0) := by
  have hperm : (argsortRow row).Perm (List.range row.length) := List.mergeSort_perm _ _
  have hslen : (argsortRow row).length = row.length := by
    rw [hperm.length_eq, List.length_range]
  have hn1 : 0 < row.length := List.length_pos.mpr hne
  have hsne : argsortRow row ≠ [] := by
    intro h
    rw [h] at hslen
    simp only [List.length_nil] at hslen
    omega
  have hklast : argsortLast row = (argsortRow row).getLast hsne := by
    rw [argsortLast, List.getLastD_eq_getLast?, List.getLast?_eq_getLast _ hsne]
    rfl
  have hsorted : (argsortRow row).Pairwise
      (fun i j => row.getD i 0 ≤ row.getD j 0) := by
    have h := List.sorted_mergeSort (rowLe_trans row) (rowLe_total row)
      (List.range row.length)
    exact h.imp (fun hab => by simpa using hab)
  have hmem : ∀ i, i ∈ argsortRow row ↔ i < row.length := by
    intro i
    rw [hperm.mem_iff, List.mem_range]
  have hsplit : (argsortRow row).dropLast ++ [(argsortRow row).getLast hsne] =
      argsortRow row := List.dropLast_append_getLast hsne
  have hmaxd : ∀ x ∈ (argsortRow row).dropLast,
      row.getD x 0 ≤ row.getD ((argsortRow row).getLast hsne) 0 := by
    have hp := hsorted
    rw [← hsplit, List.pairwise_append] at hp
    intro x hx
    exact hp.2.2 x hx _ (by simp)
  have hkmem : argsortLast row ∈ argsortRow row := by
    rw [hklast]
    exact List.getLast_mem hsne
  have hklt : argsortLast row < row.length := (hmem _).mp hkmem
  have hmax : ∀ i, i < row.length → row.getD i 0 ≤ row.getD (argsortLast row) 0 := by
    intro i hi
    have hmem' : i ∈ argsortRow row := (hmem i).mpr hi
    rw [← hsplit] at hmem'
    rcases List.mem_append.mp hmem' with h | h
    · rw [hklast]
      exact hmaxd i h
    · simp only [List.mem_singleton] at h
      rw [h, hklast]
  refine ⟨hklt, hmax, ?_⟩
  intro i hki hi
  by_contra hnot
  have hle' : row.getD (argsortLast row) 0 ≤ row.getD i 0 := not_lt.mp hnot
  have hpairsub : List.Sublist [argsortLast row, i] (List.range row.length) := by
    have h1 : List.Sublist [argsortLast row] (List.range i) :=
      List.singleton_sublist.mpr (List.mem_range.mpr hki)
    have h2 : List.Sublist ([argsortLast row] ++ [i]) (List.range i ++ [i]) :=
      List.Sublist.append h1 (List.Sublist.refl [i])
    rw [← List.range_succ i] at h2
    exact h2.trans (List.range_sublist.mpr (by omega))
  have hpairwise : List.Pairwise
      (fun a b => decide (row.getD a 0 ≤ row.getD b 0) = true)
      [argsortLast row, i] := List.pairwise_pair.mpr (by simpa using hle')
  have hsub2 : List.Sublist [argsortLast row, i] (argsortRow row) :=
    List.sublist_mergeSort (rowLe_trans row) (rowLe_total row) hpairwise hpairsub
  have hnodup : (argsortRow row).Nodup := hperm.nodup_iff.mpr (List.nodup_range _)
  rw [← hsplit] at hsub2 hnodup
  have hdisj : List.Disjoint (argsortRow row).dropLast
      [(argsortRow row).getLast hsne] := (List.nodup_append.mp hnodup).2.2
  have hrev : List.Sublist [i, argsortLast row]
      ((argsortRow row).getLast hsne :: (argsortRow row).dropLast.reverse) := by
    have h := hsub2.reverse
    rw [List.reverse_append] at h
    simpa using h
  rw [hklast] at hki
  cases hrev with
  | cons _ h =>
    have hkin : (argsortRow row).getLast hsne ∈ (argsortRow row).dropLast.reverse :=
      h.subset (by simp only [List.mem_cons, List.mem_singleton]; exact Or.inr (Or.inl hklast.symm))
    rw [List.mem_reverse] at hkin
    exact hdisj hkin (by simp)
  | cons₂ _ h =>
    omega

theorem claim7_argmax_call_witness :
    argsortLast [(1 : ℚ), 2] < [(1 : ℚ), 2].length ∧
    (∀ i, i < [(1 : ℚ), 2].length →
      [(1 : ℚ), 2].getD i 0 ≤ [(1 : ℚ), 2].getD (argsortLast [(1 : ℚ), 2]) 0) ∧
    (∀ i, argsortLast [(1 : ℚ), 2] < i → i < [(1 : ℚ), 2].length →
      [(1 : ℚ), 2].getD i 0 < [(1 : ℚ), 2].getD (argsortLast [(1 : ℚ), 2]) 0) :=
  claim7_argmax_call [(1 : ℚ), 2] (List.cons_ne_nil _ _)

/-- **C7 counterexample**: on the tied posterior row `[1/2, 1/2]` the
`argsort(1)[:,-1]` selection yields state 1 (the highest tied index),
not the lowest tied index 0 that the claim demands. -/
theorem claim7_counterexample :
    smoothedCalls [[(1 : ℚ) / 2, 1 / 2]] = [1] ∧
    ¬ smoothedCalls [[(1 : ℚ) / 2, 1 / 2]] = [0] := by
  have hsort : argsortRow [(1 : ℚ) / 2, 1 / 2] = [0, 1] := by
    have hr : List.range ([(1 : ℚ) / 2, 1 / 2].length) = [0, 1] := rfl
    rw [argsortRow, hr]
    apply List.mergeSort_of_sorted
    norm_num [List.pairwise_cons]
  have hlast : argsortLast [(1 : ℚ) / 2, 1 / 2] = 1 := by
    rw [argsortLast, hsort]
    decide
  have hcall : smoothedCalls [[(1 : ℚ) / 2, 1 / 2]] = [1] := by
    show List.map argsortLast [[(1 : ℚ) / 2, 1 / 2]] = [1]
    simp only [List.map_cons, List.map_nil, hlast]
  exact ⟨hcall, by rw [hcall]; decide⟩

/-! ## The filter pipeline on undersized inputs -/

theorem pos2gm_returns_value (m : List (ℚ × ℚ)) (pos : ℚ) (hne : m ≠ []) :
    isOkE (pos2gm m pos) = true := by
  have h0 : m.length ≠ 0 := by simpa using hne
  have hb := searchsorted_le_length (m.map Prod.fst) pos
  rw [List.length_map] at hb
  rw [pos2gm_eq]
  split_ifs with h1 h2 h3 h4 h5
  any_goals rfl
  · exact absurd h1 h0
  · omega

theorem isOkE_exists {ε α : Type} (r : Except ε α) (h : isOkE r = true) :
    ∃ v, r = Except.ok v := by
  cases r with
  | ok v => exact ⟨v, rfl⟩
  | error e => simp [isOkE] at h

theorem mapExcept_pos2gm_ok (gm : List (ℚ × ℚ)) (hgm : gm ≠ []) (locs : List ℚ) :
    ∃ vs : List ℚ, mapExcept (pos2gm gm) locs = Except.ok vs ∧
      vs.length = locs.length := by
  induction locs with
  | nil => exact ⟨[], rfl, rfl⟩
  | cons p ps ih =>
    obtain ⟨vs, hvs, hlenv⟩ := ih
    obtain ⟨v, hv⟩ := isOkE_exists _ (pos2gm_returns_value gm p hgm)
    refine ⟨v :: vs, ?_, by simp [hlenv]⟩
    simp [mapExcept, hv, hvs]

/-- **C8** (amended): for `1 ≤ N < W` (SNP count smaller than window
count) the filter raises no configuration error: `binSize` becomes 1
and model building succeeds, producing `N` (< W) transition matrices
that are handed on to the external HMM engine.  (Only the degenerate
`N = 0` raises, a `ValueError` from the zero range step.) -/
theorem claim8_no_config_error (gm : List (ℚ × ℚ)) (snpLocs : List ℚ) (sr : List ℝ)
    (nGens : ℝ) (n W : ℕ) (hgm : gm ≠ []) (hne : snpLocs ≠ [])
    (hNW : snpLocs.length < W) :
    buildSucceeded (hmmFilterMatrices gm nGens n snpLocs sr W) = true ∧
    builtTransCount (hmmFilterMatrices gm nGens n snpLocs sr W) = snpLocs.length := by
  obtain ⟨vs, hvs, hlenv⟩ := mapExcept_pos2gm_ok gm hgm snpLocs
  have hN1 : 0 < snpLocs.length := List.length_pos.mpr hne
  have hW0 : W ≠ 0 := by omega
  have hbs : binSize vs.length W = 1 := by
    rw [hlenv, binSize]
    apply Nat.div_eq_of_lt_le <;> omega
  have hok : hmmFilterMatrices gm nGens n snpLocs sr W =
      Except.ok
        (transitionMatrices n nGens ((windowMeans vs W).map (Rat.cast : ℚ → ℝ)),
         emissionMatrices n sr) := by
    rw [hmmFilterMatrices, hvs]
    show (if W = 0 then Except.error PyError.zeroDivisionError
      else if binSize vs.length W = 0 then Except.error PyError.valueError
      else Except.ok (transitionMatrices n nGens
          ((windowMeans vs W).map (Rat.cast : ℚ → ℝ)),
        emissionMatrices n sr)) = _
    rw [if_neg hW0, if_neg (by rw [hbs]; omega)]
  rw [hok]
  refine ⟨rfl, ?_⟩
  show (transitionMatrices n nGens ((windowMeans vs W).map (Rat.cast : ℚ → ℝ))).length =
    snpLocs.length
  rw [transitionMatrices_length, List.length_map, windowMeans_length, hbs, hlenv]
  omega

theorem claim8_no_config_error_witness :
    buildSucceeded (hmmFilterMatrices [((0 : ℚ), 0), (100, 1)] 10 3
      [(10 : ℚ), 20] [(3 : ℝ) / 10, 3 / 10, 3 / 10] 3) = true ∧
    builtTransCount (hmmFilterMatrices [((0 : ℚ), 0), (100, 1)] 10 3
      [(10 : ℚ), 20] [(3 : ℝ) / 10, 3 / 10, 3 / 10] 3) = [(10 : ℚ), 20].length :=
  claim8_no_config_error [((0 : ℚ), 0), (100, 1)] [(10 : ℚ), 20]
    [(3 : ℝ) / 10, 3 / 10, 3 / 10] 10 3 3
    (List.cons_ne_nil _ _) (List.cons_ne_nil _ _) (by decide)

/-- **C8 counterexample**: a concrete run with N = 2 SNP positions and
W = 3 windows in which model building completes without any error,
producing 2 transition matrices — the filter does not fail. -/
theorem claim8_counterexample :
    buildSucceeded (hmmFilterMatrices [((0 : ℚ), 0), (50, 2)] 5 2
      [(10 : ℚ), 20] [(1 : ℝ) / 2, 1 / 2, 1 / 2] 3) = true ∧
    builtTransCount (hmmFilterMatrices [((0 : ℚ), 0), (50, 2)] 5 2
      [(10 : ℚ), 20] [(1 : ℝ) / 2, 1 / 2, 1 / 2] 3) = 2 ∧
    (2 : ℕ) < 3 :=
  ⟨rfl, rfl, by omega⟩

end SupportMix
